import Mathlib

/-!
Shallow embedding of `src/textcopy.c` (the Nixdorf 8820 text-stream decoder,
Variant A) and, modelled from the specification, the streaming Variant B.

Bytes are `Nat` values (the C code reads them with `fread`/`fgetc`, so the
values that actually occur are in 0..255).  The input stream is a `List Nat`
consumed from the front; `ungetc` pushback is modelled by returning a
remainder list that starts with the pushed-back byte.
-/

/-- One lowercase hex digit, as `printf "%x"` renders a value in 0..15. -/
def hexDigit (d : Nat) : Nat :=
  if d < 10 then 0x30 + d else 0x57 + d

/-- The two lowercase hex digits of `fprintf(out, "%02x", c)` for a byte. -/
def hex2 (c : Nat) : List Nat :=
  [hexDigit (c / 16 % 16), hexDigit (c % 16)]

/-- The inner `while (in_line)` loop of `main` in `textcopy.c`.
Takes the remaining input and the current printed-character counter `ll`,
returns the bytes written for this line and the remaining input after the
line ends (on the `c == 0` branch the `ungetc` pushback puts the null back
in front of the remainder).  Reaching the end of the list models `fgetc`
returning `EOF`. -/
def decodeLine : List Nat → Nat → List Nat × List Nat
  | [], _ => ([], [])
  | c :: rest, ll =>
    if 0x20 ≤ c ∧ c < 0x7f then
      let p := decodeLine rest (ll + 1)
      (c :: p.1, p.2)
    else if c = 0 then
      ([0x0A], c :: rest)
    else if ll = 0 then
      if c < 0xc8 then
        let p := decodeLine rest (ll + (c - 0x80))
        (List.replicate (c - 0x80) 0x20 ++ p.1, p.2)
      else if c = 0xc8 then
        ([0x0A], rest)
      else
        let p := decodeLine rest ll
        (0x5b :: (hex2 c ++ (0x5d :: p.1)), p.2)
    else if c < 0x89 then
      let p := decodeLine rest (ll + (c - 0x80))
      (List.replicate (c - 0x80) 0x20 ++ p.1, p.2)
    else
      ([0x0A], rest)

/-- The line remainder never grows: `decodeLine` consumes bytes, except that
the null-pushback branch returns exactly what it was given. -/
theorem decodeLine_snd_le (l : List Nat) :
    ∀ ll, ((decodeLine l ll).2).length ≤ l.length := by
  induction l with
  | nil => intro ll; simp [decodeLine]
  | cons c rest ih =>
    intro ll
    simp only [decodeLine]
    split_ifs <;>
      simp only [List.length_cons] <;>
      first
        | omega
        | exact le_trans (ih _) (Nat.le_succ _)

/-- The outer `while (in_file)` loop of `main` in `textcopy.c` (Variant A).
Reads a 3-byte header (halting if fewer than 3 bytes remain), halts if the
third header byte is `0x1f`, otherwise decodes one line and continues on the
remainder. -/
def decodeA (input : List Nat) : List Nat :=
  match input with
  | _b0 :: _b1 :: b2 :: rest =>
    if b2 = 0x1f then []
    else (decodeLine rest 0).1 ++ decodeA (decodeLine rest 0).2
  | _ => []
termination_by input.length
decreasing_by
  simp only [List.length_cons]
  have h := decodeLine_snd_le rest 0
  omega

theorem decodeA_cons (b0 b1 b2 : Nat) (rest : List Nat) :
    decodeA (b0 :: b1 :: b2 :: rest) =
      if b2 = 0x1f then []
      else (decodeLine rest 0).1 ++ decodeA (decodeLine rest 0).2 := by
  rw [decodeA]

theorem decodeA_short (input : List Nat) (h : input.length < 3) :
    decodeA input = [] := by
  match input with
  | [] => rw [decodeA]; simp
  | [a] => rw [decodeA]; simp
  | [a, b] => rw [decodeA]; simp
  | a :: b :: c :: rest => simp only [List.length_cons] at h; omega

theorem decodeLine_out_le (l : List Nat) :
    ∀ ll, ((decodeLine l ll).1).length + 71 * ((decodeLine l ll).2).length ≤
      71 * l.length + 1 := by
  induction l with
  | nil => intro ll; simp [decodeLine]
  | cons c rest ih =>
    intro ll
    simp only [decodeLine]
    split_ifs with h1 h2 h3 h4 h5 h6 <;>
      simp only [List.length_cons, List.length_append, List.length_replicate,
        List.length_nil] <;>
      first
        | omega
        | (have h := ih (ll + 1); omega)
        | (have h := ih (ll + (c - 0x80)); omega)
        | (have h := ih ll;
           simp only [hex2, List.length_cons, List.length_append, List.length_nil];
           omega)

theorem length_lt_three (x : List Nat)
    (h : ∀ (b0 b1 b2 : Nat) (rest : List Nat), x = b0 :: b1 :: b2 :: rest → False) :
    x.length < 3 := by
  match x with
  | [] => simp
  | [a] => simp
  | [a, b] => simp
  | a :: b :: c :: r => exact absurd rfl (h a b c r)

theorem decodeA_len (input : List Nat) : (decodeA input).length ≤ 72 * input.length := by
  induction input using decodeA.induct with
  | case1 b0 b1 rest => rw [decodeA_cons]; simp
  | case2 b0 b1 b2 rest h ih =>
    rw [decodeA_cons, if_neg h]
    have h1 := decodeLine_out_le rest 0
    have h2 := decodeLine_snd_le rest 0
    simp only [List.length_append, List.length_cons]
    omega
  | case3 x h =>
    rw [decodeA_short x (length_lt_three x h)]; simp

theorem hexDigit_range (e : Nat) (h : e ≤ 15) :
    0x30 ≤ hexDigit e ∧ hexDigit e ≤ 0x66 := by
  unfold hexDigit; split_ifs <;> omega

theorem decodeLine_mem (l : List Nat) :
    ∀ ll y, y ∈ (decodeLine l ll).1 → (0x20 ≤ y ∧ y ≤ 0x7e) ∨ y = 0x0A := by
  induction l with
  | nil => intro ll y hy; simp [decodeLine] at hy
  | cons c rest ih =>
    intro ll y hy
    simp only [decodeLine] at hy
    split_ifs at hy with h1 h2 h3 h4 h5 h6
    · rcases List.mem_cons.mp hy with rfl | hmem
      · left; omega
      · exact ih _ _ hmem
    · rcases List.mem_singleton.mp hy with rfl; right; rfl
    · rcases List.mem_append.mp hy with hmem | hmem
      · left; rcases List.mem_replicate.mp hmem with ⟨-, rfl⟩; omega
      · exact ih _ _ hmem
    · rcases List.mem_singleton.mp hy with rfl; right; rfl
    · simp only [hex2, List.mem_cons, List.mem_append, List.mem_nil_iff,
        or_false] at hy
      have ha : 0 < 16 := by norm_num
      have hm1 : c / 16 % 16 < 16 := Nat.mod_lt _ ha
      have hm2 : c % 16 < 16 := Nat.mod_lt _ ha
      have e1 := hexDigit_range (c / 16 % 16) (by omega)
      have e2 := hexDigit_range (c % 16) (by omega)
      rcases hy with rfl | ((rfl | rfl) | (rfl | hmem))
      · left; omega
      · left; omega
      · left; omega
      · left; omega
      · exact ih _ _ hmem
    · rcases List.mem_append.mp hy with hmem | hmem
      · left; rcases List.mem_replicate.mp hmem with ⟨-, rfl⟩; omega
      · exact ih _ _ hmem
    · rcases List.mem_singleton.mp hy with rfl; right; rfl

theorem decodeA_mem (input : List Nat) :
    ∀ y ∈ decodeA input, (0x20 ≤ y ∧ y ≤ 0x7e) ∨ y = 0x0A := by
  induction input using decodeA.induct with
  | case1 b0 b1 rest => rw [decodeA_cons]; simp
  | case2 b0 b1 b2 rest h ih =>
    intro y hy
    rw [decodeA_cons, if_neg h] at hy
    rcases List.mem_append.mp hy with hmem | hmem
    · exact decodeLine_mem _ _ _ hmem
    · exact ih _ hmem
  | case3 x h =>
    intro y hy
    rw [decodeA_short x (length_lt_three x h)] at hy
    simp at hy

theorem decodeLine_printable_id (l : List Nat) :
    ∀ ll, (∀ b ∈ l, 0x20 ≤ b ∧ b ≤ 0x7e) → decodeLine l ll = (l, []) := by
  induction l with
  | nil => intro ll _; simp [decodeLine]
  | cons c rest ih =>
    intro ll hall
    have hc := hall c (List.mem_cons_self c rest)
    have h1 : 0x20 ≤ c ∧ c < 0x7f := ⟨hc.1, by omega⟩
    simp only [decodeLine, if_pos h1]
    rw [ih (ll + 1) (fun b hb => hall b (List.mem_cons_of_mem c hb))]

/-- Modelled from the spec: Variant B, the streaming no-lookahead decoder of
spec section 4.2, is a historically separate tool whose source is not under
`src/` (only Variant A, `textcopy.c`, is).  Single loop over bytes: 0x1C
emits a newline and continues; 0x1F emits a newline and halts, consuming no
further input; printable bytes pass through verbatim; 0x00 consumes and
discards exactly one companion byte; a byte in 0x80 to 0xC7 emits
`(c - 0x80)` spaces; any other byte is silently ignored. -/
def decodeB : List Nat → List Nat
  | [] => []
  | c :: rest =>
    if c = 0x1c then 0x0A :: decodeB rest
    else if c = 0x1f then [0x0A]
    else if 0x20 ≤ c ∧ c ≤ 0x7e then c :: decodeB rest
    else if c = 0 then
      match rest with
      | [] => []
      | _ :: rest2 => decodeB rest2
    else if 0x80 ≤ c ∧ c ≤ 0xc7 then List.replicate (c - 0x80) 0x20 ++ decodeB rest
    else decodeB rest

set_option maxRecDepth 4096 in
theorem decodeB_cons (c : Nat) (rest : List Nat) :
    decodeB (c :: rest) =
      if c = 0x1c then 0x0A :: decodeB rest
      else if c = 0x1f then [0x0A]
      else if 0x20 ≤ c ∧ c ≤ 0x7e then c :: decodeB rest
      else if c = 0 then
        match rest with
        | [] => []
        | _ :: rest2 => decodeB rest2
      else if 0x80 ≤ c ∧ c ≤ 0xc7 then List.replicate (c - 0x80) 0x20 ++ decodeB rest
      else decodeB rest := by
  rw [decodeB.eq_def]

/-- Claim C1: for every finite input byte sequence the Variant A decoder
terminates with a finite output (witnessed by `decodeA` being a total
function with output length at most 72 times the input length), and on
zero-length input the output is zero-length. -/
theorem claim1_totality :
    decodeA [] = [] ∧ ∀ input : List Nat, (decodeA input).length ≤ 72 * input.length :=
  ⟨decodeA_short [] (by simp), decodeA_len⟩

/-- Claim C2: when the third byte of the 3-byte header is 0x1F, or when
fewer than 3 bytes remain for the header read, the Variant A decoder halts
at once and this call emits nothing (so a whole run ends with exactly the
output accumulated from prior lines, with no trailing newline added). -/
theorem claim2_header_terminator (b0 b1 : Nat) (rest input : List Nat)
    (h : input = b0 :: b1 :: 0x1f :: rest ∨ input.length < 3) :
    decodeA input = [] := by
  rcases h with rfl | hlen
  · rw [decodeA_cons, if_pos rfl]
  · exact decodeA_short input hlen

theorem claim2_wit : decodeA [0x41, 0x42, 0x1f, 0x43] = [] ∧ decodeA [0x41, 0x42] = [] :=
  ⟨claim2_header_terminator 0x41 0x42 [0x43] _ (Or.inl rfl),
   claim2_header_terminator 0 0 [] [0x41, 0x42] (Or.inr (by simp))⟩

/-- Claim C3: every byte the Variant A decoder emits is printable ASCII
(0x20 to 0x7E) or a newline (0x0A): verbatim printable bytes, spaces,
newlines, and the characters of the bracketed lowercase-hex escapes. -/
theorem claim3_output_charset (input : List Nat) (y : Nat) (hy : y ∈ decodeA input) :
    (0x20 ≤ y ∧ y ≤ 0x7e) ∨ y = 0x0A :=
  decodeA_mem input y hy

theorem claim3_wit :
    0x41 ∈ decodeA [0x01, 0x02, 0x03, 0x41] ∧
      ((0x20 ≤ 0x41 ∧ 0x41 ≤ 0x7e) ∨ 0x41 = 0x0A) := by
  have he : decodeA [0x01, 0x02, 0x03, 0x41] = [0x41] := by
    rw [decodeA_cons]
    norm_num [decodeLine]
    rw [decodeA_short [] (by simp)]
  have hmem : 0x41 ∈ decodeA [0x01, 0x02, 0x03, 0x41] := by rw [he]; simp
  exact ⟨hmem, claim3_output_charset _ _ hmem⟩

/-- Claim C4: a 0x00 byte read inside a line, at any inner-loop position,
makes Variant A push the null back onto the input, emit exactly one
newline, and end the line without consuming the null, so the next 3-byte
header read begins at that pushed-back 0x00. -/
theorem claim4_null_pushback (rest : List Nat) (ll : Nat) :
    decodeLine (0 :: rest) ll = ([0x0A], 0 :: rest) ∧
      ∀ (b0 b1 b2 : Nat) (l : List Nat), ¬(b2 = 0x1f) →
        decodeA (b0 :: b1 :: b2 :: 0 :: l) = 0x0A :: decodeA (0 :: l) := by
  constructor
  · simp [decodeLine]
  · intro b0 b1 b2 l hne
    rw [decodeA_cons, if_neg hne]
    simp [decodeLine]

theorem claim4_wit :
    decodeLine [0x00, 0x41] 5 = ([0x0A], [0x00, 0x41]) ∧
      decodeA [0x01, 0x02, 0x03, 0x00, 0x41] = 0x0A :: decodeA [0x00, 0x41] :=
  ⟨(claim4_null_pushback [0x41] 5).1,
   (claim4_null_pushback [] 0).2 0x01 0x02 0x03 [0x41] (by norm_num)⟩

/-- Claim C5: a byte `c` in 0x80 to 0xC7 read at the start of a line
(printed-character counter still zero) makes Variant A emit exactly
`c - 0x80` space characters, and the counter becomes `c - 0x80`, so the
spaces count as characters printed. -/
theorem claim5_line_start_spaces (c : Nat) (rest : List Nat)
    (h1 : 0x80 ≤ c) (h2 : c ≤ 0xc7) :
    decodeLine (c :: rest) 0 =
      (List.replicate (c - 0x80) 0x20 ++ (decodeLine rest (c - 0x80)).1,
        (decodeLine rest (c - 0x80)).2) := by
  have hnp : ¬(0x20 ≤ c ∧ c < 0x7f) := by omega
  have hnz : ¬(c = 0) := by omega
  have hlt : c < 0xc8 := by omega
  simp only [decodeLine, if_pos hlt, if_neg hnp, if_neg hnz, if_pos rfl,
    if_true, Nat.zero_add]

theorem claim5_wit :
    decodeLine [0x95] 0 = (List.replicate 21 0x20, []) ∧ (0x95 : Nat) - 0x80 = 21 := by
  constructor
  · rw [claim5_line_start_spaces 0x95 [] (by norm_num) (by norm_num)]; decide
  · decide

/-- Claim C6 counterexample: the byte 0x05 at the start of a line is NOT
emitted as a bracketed hex escape: it falls into the space-expansion branch
(`c < 0xc8` with the loop running zero times) and is silently dropped, so
the input `41 42 43 05 58` decodes to just `X` (0x58) with no `[05]`. -/
theorem claim6_cex :
    decodeLine [0x05] 0 = ([], []) ∧
      decodeA [0x41, 0x42, 0x43, 0x05, 0x58] = [0x58] ∧
      ([0x58] : List Nat) ≠ [0x5b, 0x30, 0x35, 0x5d, 0x58] := by
  refine ⟨by decide, ?_, by decide⟩
  rw [decodeA_cons]
  norm_num [decodeLine]
  rw [decodeA_short [] (by simp)]

/-- Claim C6 (amended): at the start of a line (counter zero) a byte at or
above 0xC9 is emitted as a bracketed two-lowercase-hex-digit escape and the
line continues with the counter still zero; a non-printable byte below
0x80 other than 0x00, however, is silently dropped (the space-expansion
loop runs zero times), not escaped. -/
theorem claim6_line_start_escape :
    (∀ (c : Nat) (rest : List Nat), 0xc9 ≤ c →
      decodeLine (c :: rest) 0 =
        (0x5b :: (hex2 c ++ (0x5d :: (decodeLine rest 0).1)), (decodeLine rest 0).2)) ∧
    (∀ (d : Nat) (l : List Nat), d < 0x80 → ¬(0x20 ≤ d ∧ d < 0x7f) → ¬(d = 0) →
      decodeLine (d :: l) 0 = decodeLine l 0) := by
  constructor
  · intro c rest hc
    have hnp : ¬(0x20 ≤ c ∧ c < 0x7f) := by omega
    have hnz : ¬(c = 0) := by omega
    have hge : ¬(c < 0xc8) := by omega
    have hc8 : ¬(c = 0xc8) := by omega
    simp only [decodeLine, if_neg hnp, if_neg hnz, if_pos rfl, if_true,
      if_neg hge, if_neg hc8]
  · intro d l hd hnp hnz
    have hlt : d < 0xc8 := by omega
    have hz : d - 0x80 = 0 := by omega
    simp only [decodeLine, if_neg hnp, if_neg hnz, if_pos rfl, if_true,
      if_pos hlt, hz, List.replicate_zero, List.nil_append, Nat.add_zero,
      Nat.zero_add]

theorem claim6_wit :
    decodeLine [0xd0] 0 = ([0x5b, 0x64, 0x30, 0x5d], []) ∧
      decodeLine [0x07] 0 = decodeLine ([] : List Nat) 0 := by
  constructor
  · rw [claim6_line_start_escape.1 0xd0 [] (by norm_num)]; decide
  · exact claim6_line_start_escape.2 0x07 [] (by norm_num) (by norm_num) (by norm_num)

/-- Claim C7 counterexample: mid-line (counter positive), the byte 0x05 —
which is not printable, not 0x00, and outside 0x80 to 0x88 — does NOT end
the line with a newline: it falls into the `c < 0x89` space branch with
zero iterations and is silently dropped, so input `41 42 43 58 05 59`
decodes to `XY` (0x58 0x59), not `X` followed by a newline. -/
theorem claim7_cex :
    decodeLine [0x05, 0x59] 1 = ([0x59], []) ∧
      decodeLine [0x05, 0x59] 1 ≠ ([0x0A], [0x59]) ∧
      decodeA [0x41, 0x42, 0x43, 0x58, 0x05, 0x59] = [0x58, 0x59] := by
  refine ⟨by decide, by decide, ?_⟩
  rw [decodeA_cons]
  norm_num [decodeLine]
  rw [decodeA_short [] (by simp)]

/-- Claim C7 (amended): once something has been printed on the line
(counter positive), a byte at or above 0x89 makes Variant A emit exactly
one newline and end the line; a non-printable byte below 0x80 other than
0x00, however, is silently dropped mid-line (zero-iteration space loop)
and the line continues. -/
theorem claim7_midline_terminator :
    (∀ (c : Nat) (rest : List Nat) (ll : Nat), 0 < ll → 0x89 ≤ c →
      decodeLine (c :: rest) ll = ([0x0A], rest)) ∧
    (∀ (d : Nat) (l : List Nat) (ll : Nat), 0 < ll → d < 0x80 →
      ¬(0x20 ≤ d ∧ d < 0x7f) → ¬(d = 0) →
      decodeLine (d :: l) ll = decodeLine l ll) := by
  constructor
  · intro c rest ll hll hc
    have hnp : ¬(0x20 ≤ c ∧ c < 0x7f) := by omega
    have hnz : ¬(c = 0) := by omega
    have hl0 : ¬(ll = 0) := by omega
    have hge : ¬(c < 0x89) := by omega
    simp only [decodeLine, if_neg hnp, if_neg hnz, if_neg hl0, if_neg hge]
  · intro d l ll hll hd hnp hnz
    have hl0 : ¬(ll = 0) := by omega
    have hlt : d < 0x89 := by omega
    have hz : d - 0x80 = 0 := by omega
    simp only [decodeLine, if_neg hnp, if_neg hnz, if_neg hl0, if_pos hlt,
      hz, List.replicate_zero, List.nil_append, Nat.add_zero]

theorem claim7_wit :
    decodeLine [0x89, 0x41] 1 = ([0x0A], [0x41]) ∧
      decodeLine [0x05, 0x41] 2 = decodeLine [0x41] 2 :=
  ⟨claim7_midline_terminator.1 0x89 [0x41] 1 (by norm_num) (by norm_num),
   claim7_midline_terminator.2 0x05 [0x41] 2 (by norm_num) (by norm_num)
     (by norm_num) (by norm_num)⟩

/-- Claim C8 counterexample: on the input consisting of exactly the three
bytes `41 00 42`, Variant A consumes all three as the header lookahead
(the third byte 0x42 is not 0x1F), then hits end-of-file at the first
inner read, so it emits nothing at all — not `A` followed by a newline. -/
theorem claim8_cex :
    decodeA [0x41, 0x00, 0x42] = [] ∧ ([] : List Nat) ≠ [0x41, 0x0A] := by
  refine ⟨?_, by decide⟩
  rw [decodeA_cons]
  norm_num [decodeLine]
  rw [decodeA_short [] (by simp)]

/-- Claim C8 (amended): when the bytes `41 00 42` follow a 3-byte header
whose third byte is not 0x1F, Variant A emits `A` then a newline, pushing
the 0x00 back so the next header read starts at the pushed-back 0x00; on
the bare three bytes `41 00 42` alone it emits nothing, because those
three bytes are consumed as the header. -/
theorem claim8_null_line (b0 b1 b2 : Nat) (h : ¬(b2 = 0x1f)) :
    decodeA (b0 :: b1 :: b2 :: [0x41, 0x00, 0x42]) = [0x41, 0x0A] ∧
      (decodeLine [0x41, 0x00, 0x42] 0).2 = [0x00, 0x42] := by
  refine ⟨?_, by decide⟩
  rw [decodeA_cons, if_neg h]
  norm_num [decodeLine]
  rw [decodeA_short [0x00, 0x42] (by simp)]

theorem claim8_wit :
    decodeA [0x20, 0x20, 0x20, 0x41, 0x00, 0x42] = [0x41, 0x0A] :=
  (claim8_null_line 0x20 0x20 0x20 (by norm_num)).1

/-- Claim C9: Variant B (modelled from the spec, since only Variant A is in
`src/`): in its single streaming loop, byte 0x1C emits a newline and
decoding continues, and byte 0x1F emits a newline and halts, consuming no
further input. -/
theorem claim9_variantB :
    ∀ rest : List Nat,
      decodeB (0x1c :: rest) = 0x0A :: decodeB rest ∧
        decodeB (0x1f :: rest) = [0x0A] := by
  intro rest
  constructor
  · rw [decodeB_cons]; norm_num
  · rw [decodeB_cons]; norm_num

/-- Claim C10: an input consisting solely of printable bytes 0x20 to 0x7E
decodes under Variant A to the input with its first three bytes removed
(empty when the input is shorter than three bytes): the leading three
bytes are consumed as the header and the rest pass through verbatim. -/
theorem claim10_printable_drop3 (input : List Nat)
    (h : ∀ b ∈ input, 0x20 ≤ b ∧ b ≤ 0x7e) :
    decodeA input = input.drop 3 := by
  match input with
  | [] => rw [decodeA_short [] (by simp)]; rfl
  | [a] => rw [decodeA_short [a] (by simp)]; rfl
  | [a, b] => rw [decodeA_short [a, b] (by simp)]; rfl
  | a :: b :: c :: rest =>
    have hc := h c (by simp)
    have hne : ¬(c = 0x1f) := by omega
    rw [decodeA_cons, if_neg hne,
      decodeLine_printable_id rest 0 (fun x hx => h x (by simp [hx]))]
    rw [decodeA_short [] (by simp)]
    simp

theorem claim10_wit :
    decodeA [0x48, 0x49, 0x4a, 0x4b, 0x4c] = [0x4b, 0x4c] := by
  have := claim10_printable_drop3 [0x48, 0x49, 0x4a, 0x4b, 0x4c] (by decide)
  simpa using this
